import Mathlib

/-!
Verification development for the pcd-lod point-cloud LOD pipeline.

Shallow embedding conventions:
* Rust `f64` values are modelled as exact rationals (`ℚ`).  The special
  constants `f64::MAX` / `f64::MIN` used by the code as fold seeds are
  modelled by their exact rational values.
* The three `FromIterator` impls of `BoundingBox` accept arbitrary `f64`
  coordinates, so for the bounding-box component the coordinate type `F`
  also carries the two infinities (needed to state properties that mention
  `+∞` / `−∞`); the rest of the pipeline works on finite coordinates.
* Stateful Rust code becomes explicit state passing; `unwrap` panics and
  `anyhow` errors become `Option`/error-flag results.
* Comparisons of Euclidean norms (`norm ≤ r`) are embedded as comparisons
  of squared distances (`dist2 ≤ r²`), which is equivalent for `r ≥ 0`.
* Because the library's `Rat.add/sub/mul/div` are `@[irreducible]` (which
  blocks concrete evaluation by `decide`), the embedding uses the wrappers
  `qadd/qsub/qmul/qdiv/qmin/qmax` below, each proved equal to the
  corresponding standard operation on `ℚ`.
-/

set_option exponentiation.threshold 1100

namespace PcdLod

/-- Reducible rational addition (proved equal to `+` in `qadd_eq`). -/
def qadd (a b : ℚ) : ℚ := Rat.divInt (a.num * b.den + b.num * a.den) (a.den * b.den)

/-- Reducible rational subtraction (proved equal to `-` in `qsub_eq`). -/
def qsub (a b : ℚ) : ℚ := Rat.divInt (a.num * b.den - b.num * a.den) (a.den * b.den)

/-- Reducible rational multiplication (proved equal to `*` in `qmul_eq`). -/
def qmul (a b : ℚ) : ℚ := Rat.divInt (a.num * b.num) (a.den * b.den)

/-- Reducible rational division (proved equal to `/` in `qdiv_eq`). -/
def qdiv (a b : ℚ) : ℚ := Rat.divInt (a.num * b.den) (a.den * b.num)

/-- Reducible rational minimum (proved equal to `min` in `qmin_eq`). -/
def qmin (a b : ℚ) : ℚ := if a ≤ b then a else b

/-- Reducible rational maximum (proved equal to `max` in `qmax_eq`). -/
def qmax (a b : ℚ) : ℚ := if a ≤ b then b else a

theorem qadd_eq (a b : ℚ) : qadd a b = a + b := by
  rw [qadd]
  conv_rhs => rw [← Rat.num_divInt_den a, ← Rat.num_divInt_den b]
  rw [Rat.divInt_add_divInt _ _
    (Int.natCast_ne_zero.mpr a.den_nz) (Int.natCast_ne_zero.mpr b.den_nz)]

theorem qsub_eq (a b : ℚ) : qsub a b = a - b := by
  rw [qsub]
  conv_rhs => rw [← Rat.num_divInt_den a, ← Rat.num_divInt_den b]
  rw [Rat.divInt_sub_divInt _ _
    (Int.natCast_ne_zero.mpr a.den_nz) (Int.natCast_ne_zero.mpr b.den_nz)]

theorem qmul_eq (a b : ℚ) : qmul a b = a * b := by
  rw [qmul]
  conv_rhs => rw [← Rat.num_divInt_den a, ← Rat.num_divInt_den b]
  rw [Rat.divInt_mul_divInt']

theorem qdiv_eq (a b : ℚ) : qdiv a b = a / b := by
  rw [qdiv]
  conv_rhs => rw [← Rat.num_divInt_den a, ← Rat.num_divInt_den b]
  rw [Rat.divInt_div_divInt]

theorem qmin_eq (a b : ℚ) : qmin a b = min a b := by
  rw [qmin, min_def]

theorem qmax_eq (a b : ℚ) : qmax a b = max a b := by
  rw [qmax, max_def]

/-- Exact value of `f64::MAX` = (2^53 − 1) · 2^971 as a natural number. -/
def f64MaxNat : ℕ := (2 ^ 53 - 1) * 2 ^ 971

/-- Exact rational value of `f64::MAX`. -/
def f64MaxQ : ℚ := (f64MaxNat : ℚ)

/-- `f64` coordinate for the bounding-box component: a rational or one of
the two infinities (`f64::INFINITY` / `f64::NEG_INFINITY`). -/
inductive F where
  | negInf : F
  | fin : ℚ → F
  | posInf : F
  deriving DecidableEq, Repr

/-- Componentwise `min` on extended values (matching nalgebra's `inf`). -/
def F.fmin : F → F → F
  | .negInf, _ => .negInf
  | _, .negInf => .negInf
  | .posInf, b => b
  | a, .posInf => a
  | .fin a, .fin b => .fin (qmin a b)

/-- Componentwise `max` on extended values (matching nalgebra's `sup`). -/
def F.fmax : F → F → F
  | .posInf, _ => .posInf
  | _, .posInf => .posInf
  | .negInf, b => b
  | a, .negInf => a
  | .fin a, .fin b => .fin (qmax a b)

/-- A 3D point with extended-real coordinates (for `BoundingBox`). -/
structure V3F where
  x : F
  y : F
  z : F
  deriving DecidableEq, Repr

/-- `bounding_box.rs`: axis-aligned box given by `min` and `max` corners. -/
structure BoundingBox where
  bmin : V3F
  bmax : V3F
  deriving DecidableEq, Repr

/-- `BoundingBox::extend`: `min ← inf(min, p)`, `max ← sup(max, p)`. -/
def BoundingBox.extend (b : BoundingBox) (p : V3F) : BoundingBox :=
  { bmin := ⟨b.bmin.x.fmin p.x, b.bmin.y.fmin p.y, b.bmin.z.fmin p.z⟩
    bmax := ⟨b.bmax.x.fmax p.x, b.bmax.y.fmax p.y, b.bmax.z.fmax p.z⟩ }

/-- The start value of the `FromIterator` impls: `min` filled with
`f64::MAX`, `max` filled with `f64::MIN` (= `-f64::MAX`). -/
def emptyBox : BoundingBox :=
  { bmin := ⟨.fin f64MaxQ, .fin f64MaxQ, .fin f64MaxQ⟩
    bmax := ⟨.fin (-f64MaxQ), .fin (-f64MaxQ), .fin (-f64MaxQ)⟩ }

/-- The `FromIterator` impls of `BoundingBox`: start from `emptyBox` and
extend with every point of the iterator. -/
def boxFromIter (ps : List V3F) : BoundingBox :=
  ps.foldl BoundingBox.extend emptyBox

/-- The box the claim says `from_iter` of an empty iterator produces:
`min = +∞` and `max = −∞` in every component. -/
def infEmptyBox : BoundingBox :=
  { bmin := ⟨.posInf, .posInf, .posInf⟩
    bmax := ⟨.negInf, .negInf, .negInf⟩ }

/-- C7 counterexample: `from_iter` over an empty iterator does NOT produce
the box with `min = +∞`, `max = −∞`; its min components are `f64::MAX`,
which is a finite value distinct from `+∞`. -/
theorem boxFromIter_empty_not_infinite :
    boxFromIter [] ≠ infEmptyBox ∧ (boxFromIter []).bmin.x = .fin f64MaxQ := by
  constructor
  · intro h
    exact F.noConfusion (congrArg (fun b => b.bmin.x) h)
  · rfl

/-- C7 (amended): `BoundingBox` built via `from_iter` over an empty iterator
has `min = f64::MAX` and `max = f64::MIN = -f64::MAX` in every component. -/
theorem boxFromIter_empty_eq :
    boxFromIter [] =
      { bmin := ⟨.fin f64MaxQ, .fin f64MaxQ, .fin f64MaxQ⟩
        bmax := ⟨.fin (-f64MaxQ), .fin (-f64MaxQ), .fin (-f64MaxQ)⟩ } := rfl

/-- C8: for every point sequence `xs` (the claim only asserts the non-empty
case) and point `p`, `from_iter(xs).extend(p)` equals `from_iter(xs ++ [p])`. -/
theorem boxFromIter_extend (xs : List V3F) (p : V3F) (_h : xs ≠ []) :
    (boxFromIter xs).extend p = boxFromIter (xs ++ [p]) := by
  rw [boxFromIter, boxFromIter, List.foldl_append]
  rfl

/-- Witness for C8 at a concrete non-empty input. -/
theorem boxFromIter_extend_witness :
    ([⟨.fin 0, .fin 0, .fin 0⟩] : List V3F) ≠ [] ∧
      (boxFromIter [⟨.fin 0, .fin 0, .fin 0⟩]).extend ⟨.fin 1, .fin 2, .fin 3⟩ =
        boxFromIter ([⟨.fin 0, .fin 0, .fin 0⟩] ++ [⟨.fin 1, .fin 2, .fin 3⟩]) :=
  ⟨by decide, boxFromIter_extend _ _ (by decide)⟩

/-! ## Core data model: points, colors, squared distances -/

/-- A finite 3D vector / point position (`nalgebra::Point3<f64>` / `Vector3<f64>`). -/
structure V3 where
  x : ℚ
  y : ℚ
  z : ℚ
  deriving DecidableEq, Repr

/-- `color.rs`: an RGB8 color. -/
structure Color where
  red : ℕ
  green : ℕ
  blue : ℕ
  deriving DecidableEq, Repr

/-- `Color::white()`. -/
def Color.white : Color := ⟨255, 255, 255⟩

/-- `point.rs`: a parsed point. -/
structure Point where
  position : V3
  color : Option Color
  intensity : Option ℚ
  deriving DecidableEq, Repr

/-- Squared Euclidean distance between two positions
(`(p - q).norm_squared()`). -/
def dist2 (a b : V3) : ℚ :=
  qadd (qadd (qmul (qsub a.x b.x) (qsub a.x b.x))
             (qmul (qsub a.y b.y) (qsub a.y b.y)))
       (qmul (qsub a.z b.z) (qsub a.z b.z))

theorem dist2_eq (a b : V3) :
    dist2 a b = (a.x - b.x) ^ 2 + (a.y - b.y) ^ 2 + (a.z - b.z) ^ 2 := by
  rw [dist2, qadd_eq, qadd_eq, qmul_eq, qmul_eq, qmul_eq, qsub_eq, qsub_eq, qsub_eq]
  ring

theorem dist2_symm (a b : V3) : dist2 a b = dist2 b a := by
  rw [dist2_eq, dist2_eq]
  ring

/-! ## Integer square roots

The samplers' grids use the cell size `c = r/√3`; under the embedding a
floor `⌊t/c⌋ = ⌊√(3t²/r²)⌋` (for `t ≥ 0 < r`) is computed through an
integer square root.  `Nat.sqrt` is defined by well-founded recursion and
does not reduce in the kernel, so a fuel-based linear search is used. -/

/-- Largest `k ≥ m` with `k² ≤ n`, searched upward with explicit fuel. -/
def sqrtGo : ℕ → ℕ → ℕ → ℕ
  | 0, _, m => m
  | fuel + 1, n, m => if (m + 1) * (m + 1) ≤ n then sqrtGo fuel n (m + 1) else m

/-- `⌊√n⌋` for naturals, kernel-reducible. -/
def natSqrtFl (n : ℕ) : ℕ := sqrtGo n n 0

theorem sqrtGo_spec (fuel : ℕ) : ∀ n m, m * m ≤ n → fuel + m = n →
    sqrtGo fuel n m * sqrtGo fuel n m ≤ n ∧ n < (sqrtGo fuel n m + 1) * (sqrtGo fuel n m + 1) := by
  induction fuel with
  | zero =>
    intro n m hm hf
    refine ⟨hm, ?_⟩
    have h1 : m = n := by omega
    subst h1
    calc m ≤ m * m + 2 * m := by omega
    _ < (m + 1) * (m + 1) := by ring_nf; omega
  | succ fuel ih =>
    intro n m hm hf
    rw [sqrtGo]
    split
    · exact ih n (m + 1) (by assumption) (by omega)
    · exact ⟨hm, by omega⟩

theorem natSqrtFl_spec (n : ℕ) :
    natSqrtFl n * natSqrtFl n ≤ n ∧ n < (natSqrtFl n + 1) * (natSqrtFl n + 1) :=
  sqrtGo_spec n n 0 (by omega) (by omega)

/-- `⌊√q⌋` for a non-negative rational `q = a/b`: equals `⌊⌊√(a·b)⌋/b⌋`. -/
def ratSqrtFloor (q : ℚ) : ℕ := natSqrtFl (q.num.toNat * q.den) / q.den

/-- `⌈√q⌉` for a non-negative rational: the floor, plus one unless `q` is a
perfect square. -/
def ratSqrtCeil (q : ℚ) : ℕ :=
  if q.num = ((ratSqrtFloor q * ratSqrtFloor q : ℕ) : ℤ) ∧ q.den = 1 then ratSqrtFloor q
  else ratSqrtFloor q + 1

/-- Correctness of `ratSqrtFloor` on non-negative rationals:
it is the greatest natural whose square is at most `q`. -/
theorem ratSqrtFloor_spec (q : ℚ) (hq : 0 ≤ q) :
    ((ratSqrtFloor q : ℚ)) ^ 2 ≤ q ∧ q < ((ratSqrtFloor q : ℚ) + 1) ^ 2 := by
  obtain ⟨a, b, k, s, hs, hk⟩ :
      ∃ (a b k s : ℕ), 0 < b ∧
        (q.num = (a : ℤ) ∧ q.den = b ∧ s = natSqrtFl (a * b) ∧ k = s / b ∧
          ratSqrtFloor q = k) := by
    refine ⟨q.num.toNat, q.den, natSqrtFl (q.num.toNat * q.den) / q.den,
      natSqrtFl (q.num.toNat * q.den), q.pos, ?_, rfl, rfl, rfl, rfl⟩
    have := Rat.num_nonneg.mpr hq
    omega
  obtain ⟨hnum, hden, hsdef, hkdef, hfl⟩ := hk
  have hb : 0 < b := hs
  have hsq := natSqrtFl_spec (a * b)
  rw [← hsdef] at hsq
  have hlow : k * k * b ≤ a := by
    have h1 : k * b ≤ s := by
      rw [hkdef]
      exact Nat.div_mul_le_self s b
    have h2 : (k * b) * (k * b) ≤ a * b := le_trans (Nat.mul_le_mul h1 h1) hsq.1
    have h3 : (k * k * b) * b ≤ a * b := by
      calc (k * k * b) * b = (k * b) * (k * b) := by ring
      _ ≤ a * b := h2
    exact Nat.le_of_mul_le_mul_right h3 hb
  have hhigh : a < (k + 1) * (k + 1) * b := by
    have h1 : s < (k + 1) * b := by
      have hdm : b * (s / b) + s % b = s := Nat.div_add_mod s b
      have hmlt : s % b < b := Nat.mod_lt _ hb
      rw [hkdef]
      calc s = b * (s / b) + s % b := hdm.symm
      _ < b * (s / b) + b := by omega
      _ = (s / b + 1) * b := by ring
    have h2 : a * b < ((k + 1) * b) * ((k + 1) * b) :=
      lt_of_lt_of_le hsq.2 (Nat.mul_le_mul (by omega) (by omega))
    have h3 : a * b < ((k + 1) * (k + 1) * b) * b := by
      calc a * b < ((k + 1) * b) * ((k + 1) * b) := h2
      _ = ((k + 1) * (k + 1) * b) * b := by ring
    exact Nat.lt_of_mul_lt_mul_right h3
  have hqval : q = (a : ℚ) / (b : ℚ) := by
    rw [← Rat.num_divInt_den q, hnum, hden, Rat.divInt_eq_div]
    norm_num
  have hbq : (0 : ℚ) < (b : ℚ) := by exact_mod_cast hb
  constructor
  · rw [hfl, hqval, le_div_iff₀ hbq]
    calc ((k : ℚ)) ^ 2 * b = ((k * k * b : ℕ) : ℚ) := by push_cast; ring
    _ ≤ ((a : ℕ) : ℚ) := by exact_mod_cast hlow
  · rw [hfl, hqval, div_lt_iff₀ hbq]
    calc ((a : ℕ) : ℚ) < (((k + 1) * (k + 1) * b : ℕ) : ℚ) := by exact_mod_cast hhigh
    _ = ((k : ℚ) + 1) ^ 2 * b := by push_cast; ring

/-! ## Sampler grid geometry -/

/-- Grid cell address `(ix, iy, iz)`. -/
abbrev Cell3 := ℕ × ℕ × ℕ

/-- One coordinate of the cell index: `⌊t / (r/√3)⌋ = ⌊√(3t²/r²)⌋`
(`(x / cell_size).floor()` in both samplers, with `t = x − min ≥ 0`, `r > 0`). -/
def idxQ (t r : ℚ) : ℕ := ratSqrtFloor (qdiv (qmul 3 (qmul t t)) (qmul r r))

/-- One grid dimension: `(size / cell_size).ceil().max(1)`.  For `size ≤ 0`
the ceiling is at most 0 and the `max` yields 1; for `size > 0` the ceiling
is `⌈√(3·size²/r²)⌉` (assuming `r > 0`, which all properties require). -/
def gridDim (t r : ℚ) : ℕ :=
  if t ≤ 0 then 1 else Nat.max 1 (ratSqrtCeil (qdiv (qmul 3 (qmul t t)) (qmul r r)))

/-- Full 3D cell index of a position, relative to grid origin `minP`
(the `index` closure of `poisson_disk_sampling.rs` and the free `index`
of `parallel_poisson_disk_sampling.rs`). -/
def index3 (minP : V3) (r : ℚ) (p : V3) : Cell3 :=
  (idxQ (qsub p.x minP.x) r, idxQ (qsub p.y minP.y) r, idxQ (qsub p.z minP.z) r)

/-- Componentwise minimum of the positions, seeded with `f64::MAX`
(`min_max` in `misc.rs` / `poisson_disk_sampling.rs`). -/
def minOf (ps : List Point) : V3 :=
  ps.foldl (fun acc p =>
    ⟨qmin acc.x p.position.x, qmin acc.y p.position.y, qmin acc.z p.position.z⟩)
    ⟨f64MaxQ, f64MaxQ, f64MaxQ⟩

/-- Componentwise maximum of the positions, seeded with `-f64::MAX`. -/
def maxOf (ps : List Point) : V3 :=
  ps.foldl (fun acc p =>
    ⟨qmax acc.x p.position.x, qmax acc.y p.position.y, qmax acc.z p.position.z⟩)
    ⟨-f64MaxQ, -f64MaxQ, -f64MaxQ⟩

/-- The three grid dimensions for a point list and radius. -/
def gridCountOf (ps : List Point) (r : ℚ) : Cell3 :=
  (gridDim (qsub (maxOf ps).x (minOf ps).x) r,
   gridDim (qsub (maxOf ps).y (minOf ps).y) r,
   gridDim (qsub (maxOf ps).z (minOf ps).z) r)

/-- `grid.rs`: a grid cell holding at most one representative and a list of
candidates. -/
structure GridCell where
  representative : Option Point
  candidates : List Point
  deriving DecidableEq, Repr

/-- `Grid::new()`. -/
def emptyCell : GridCell := ⟨none, []⟩

/-- The sampler's 3D lattice, as a total map from cell addresses; the Rust
code stores it as `Vec<Vec<Vec<Grid>>>` indexed `[z][y][x]`, here cell
`(x, y, z)` stands for `grid[z][y][x]`. -/
def GridF := Cell3 → GridCell

/-- `Grid::set` at one address (replaces the representative, keeps the
candidates). -/
def gsetRep (g : GridF) (c : Cell3) (p : Point) : GridF :=
  fun c' => if c' = c then { g c' with representative := some p } else g c'

/-- `Grid::insert` at one address (pushes a candidate). -/
def ginsert (g : GridF) (c : Cell3) (p : Point) : GridF :=
  fun c' => if c' = c then { g c' with candidates := (g c').candidates ++ [p] } else g c'

/-- Bucketing phase shared by both samplers: each input point is inserted
as a candidate of the cell of its index. -/
def bucketGrid (minP : V3) (r : ℚ) (ps : List Point) : GridF :=
  ps.foldl (fun g p => ginsert g (index3 minP r p.position) p) (fun _ => emptyCell)

/-- Chebyshev adjacency of two cell addresses: they differ by at most one
cell along every axis (the neighbourhood reached by offsets `-1..=1`). -/
def chebAdj (a b : Cell3) : Prop :=
  ((a.1 : ℤ) - b.1).natAbs ≤ 1 ∧ ((a.2.1 : ℤ) - b.2.1).natAbs ≤ 1 ∧
    ((a.2.2 : ℤ) - b.2.2).natAbs ≤ 1

instance (a b : Cell3) : Decidable (chebAdj a b) := by
  rw [chebAdj]
  infer_instance

theorem chebAdj_symm {a b : Cell3} (h : chebAdj a b) : chebAdj b a := by
  obtain ⟨h1, h2, h3⟩ := h
  exact ⟨by omega, by omega, by omega⟩

/-- In-bounds test for a cell address. -/
def inBounds (gc : Cell3) (c : Cell3) : Prop :=
  c.1 < gc.1 ∧ c.2.1 < gc.2.1 ∧ c.2.2 < gc.2.2

instance (gc c : Cell3) : Decidable (inBounds gc c) := by
  rw [inBounds]
  infer_instance

/-- Result collection shared by both samplers: scan the grid `z`-major
(matching `grid.iter().flatten().flatten()` / the nested `into_iter`) and
keep every representative. -/
def collectReps (g : GridF) (gc : Cell3) : List Point :=
  (List.range gc.2.2).flatMap fun z =>
    (List.range gc.2.1).flatMap fun y =>
      (List.range gc.1).filterMap fun x => (g (x, y, z)).representative

/-! ## Validity test against already-placed representatives

Both samplers walk a box of cell offsets around the candidate's cell and
reject the candidate if some neighbour's representative is within `radius`
(`dist.norm() <= radius`, embedded as `dist2 ≤ r²`).  The loop bounds
differ between the two source files and are passed in as the offset list:
`parallel_poisson_disk_sampling.rs` uses `-1..=1` (`offsets3`) on all three
axes, while `poisson_disk_sampling.rs` uses `-1..1` (`offsets2`), i.e. only
the offsets `{-1, 0}`. -/

/-- The offsets of the Rust range `-1..=1`. -/
def offsets3 : List ℤ := [-1, 0, 1]

/-- The offsets of the Rust range `-1..1` (upper bound exclusive). -/
def offsets2 : List ℤ := [-1, 0]

/-- The `is_valid` neighbourhood check, parameterised by the offset list.
Mirrors the nested `for dz { if z in range { for dy { if y in range {
for dx { skip center; if x in range { check representative } } } } } }`. -/
def validAgainst (offs : List ℤ) (g : GridF) (gc : Cell3) (minP : V3) (r : ℚ)
    (p : Point) : Bool :=
  let i := index3 minP r p.position
  offs.all fun dz =>
    let z := (i.2.2 : ℤ) + dz
    if 0 ≤ z ∧ z < (gc.2.2 : ℤ) then
      offs.all fun dy =>
        let y := (i.2.1 : ℤ) + dy
        if 0 ≤ y ∧ y < (gc.2.1 : ℤ) then
          offs.all fun dx =>
            if dz = 0 ∧ dy = 0 ∧ dx = 0 then true
            else
              let x := (i.1 : ℤ) + dx
              if 0 ≤ x ∧ x < (gc.1 : ℤ) then
                match (g (x.toNat, y.toNat, z.toNat)).representative with
                | some q => decide (qmul r r < dist2 p.position q.position)
                | none => true
              else true
        else true
    else true

/-- Sequentially write each point as the representative of the cell of its
index (the sequential merge loops `for pt in seeds/next { ... set(pt) }`). -/
def writeReps (minP : V3) (r : ℚ) (pts : List Point) (g : GridF) : GridF :=
  pts.foldl (fun g pt => gsetRep g (index3 minP r pt.position) pt) g

/-! ## Partitioned parallel Poisson-disk sampler
(`parallel_poisson_disk_sampling.rs`) -/

namespace Par

/-- State of `ParallelPoissonDiskSampling` (the unused `grid_max` and the
dead `half_radius` field are omitted).  `partitions` is kept in pop order:
Rust pops from the `Vec`'s tail, and the tail order is a run-time random
shuffle of the valid partition offsets, so the embedding receives the
popped sequence as an explicit list. -/
structure PState where
  radius : ℚ
  grid : GridF
  gridCount : Cell3
  gridMin : V3
  partitions : List Cell3
  partitionsCount : ℕ

/-- The `(0..3)³` offsets enumerated by the constructor's triple loop
(`z` outer, then `y`, then `x`). -/
def allOffsets : List Cell3 :=
  (List.range 3).flatMap fun z =>
    (List.range 3).flatMap fun y =>
      (List.range 3).map fun x => (x, y, z)

/-- The partition offsets the constructor retains: those inside the grid. -/
def partitionOffsets (gc : Cell3) : List Cell3 :=
  allOffsets.filter fun v => decide (inBounds gc v)

/-- `ParallelPoissonDiskSampling::new`, with the shuffled pop order of the
partition offsets passed explicitly (`order` must be a permutation of
`partitionOffsets`; the properties below hypothesise exactly that). -/
def new (inputs : List Point) (radius : ℚ) (order : List Cell3) : PState :=
  { radius
    grid := bucketGrid (minOf inputs) radius inputs
    gridCount := gridCountOf inputs radius
    gridMin := minOf inputs
    partitions := order
    partitionsCount := order.length }

/-- `ParallelPoissonDiskSampling::samples`. -/
def samples (s : PState) : List Point := collectReps s.grid s.gridCount

/-- `ParallelPoissonDiskSampling::is_completed`. -/
def isCompleted (s : PState) : Bool := s.partitions.isEmpty

/-- `ParallelPoissonDiskSampling::max_iterations`. -/
def maxIterations (s : PState) : ℕ := s.partitionsCount

/-- `ParallelPoissonDiskSampling::is_valid` (full `-1..=1` box). -/
def isValid (s : PState) (p : Point) : Bool :=
  validAgainst offsets3 s.grid s.gridCount s.gridMin s.radius p

/-- The cells of one partition: `{3·(x,y,z) + address}` for `x,y,z` in
`0..=ceil(count/3)`, restricted to the grid. -/
def stepItems (gc : Cell3) (address : Cell3) : List Cell3 :=
  (List.range ((gc.2.2 + 2) / 3 + 1)).flatMap fun z =>
    (List.range ((gc.2.1 + 2) / 3 + 1)).flatMap fun y =>
      (List.range ((gc.1 + 2) / 3 + 1)).filterMap fun x =>
        let item : Cell3 := (3 * x + address.1, 3 * y + address.2.1, 3 * z + address.2.2)
        if inBounds gc item then some item else none

/-- `ParallelPoissonDiskSampling::step`.  Popping from an empty partition
queue is the `anyhow` error path (state untouched).  Otherwise the first
step (partition count still at the maximum) seeds every cell of the
partition with its first candidate, and later steps pick each cell's first
candidate that is valid against the pre-step grid (Rust's parallel
`find_any` may return any valid candidate; the embedding resolves it to
the first).  All picks are then written sequentially. -/
def step (s : PState) : Option String × PState :=
  match s.partitions with
  | [] => (some "no address", s)
  | address :: rest =>
    let items := stepItems s.gridCount address
    if rest.length + 1 = s.partitionsCount then
      let seeds := items.filterMap fun addr => (s.grid addr).candidates.head?
      (none, { s with partitions := rest
                      grid := writeReps s.gridMin s.radius seeds s.grid })
    else
      let picks := items.filterMap fun i =>
        (s.grid i).candidates.find? fun p => isValid s p
      (none, { s with partitions := rest
                      grid := writeReps s.gridMin s.radius picks s.grid })

/-- Iterate `step`, keeping only the state. -/
def runSteps : ℕ → PState → PState
  | 0, s => s
  | k + 1, s => runSteps k (step s).2

end Par

/-! ## Auxiliary lemmas about the grid operations -/

theorem gsetRep_rep (g : GridF) (c₀ : Cell3) (p : Point) (c : Cell3) :
    ((gsetRep g c₀ p) c).representative =
      if c = c₀ then some p else (g c).representative := by
  rw [gsetRep]
  split
  · rfl
  · rfl

theorem gsetRep_cand (g : GridF) (c₀ : Cell3) (p : Point) (c : Cell3) :
    ((gsetRep g c₀ p) c).candidates = (g c).candidates := by
  rw [gsetRep]
  split
  · rfl
  · rfl

theorem writeReps_cand (minP : V3) (r : ℚ) (pts : List Point) (g : GridF) (c : Cell3) :
    ((writeReps minP r pts g) c).candidates = (g c).candidates := by
  induction pts generalizing g with
  | nil => rfl
  | cons p pts ih =>
    rw [writeReps, List.foldl_cons]
    have h := ih (gsetRep g (index3 minP r p.position) p)
    rw [writeReps] at h
    rw [h, gsetRep_cand]

/-- Classification of representatives after the sequential merge phase:
each one is either a freshly written point sitting at the cell of its own
index, or the old representative of a cell no write touched. -/
theorem writeReps_rep (minP : V3) (r : ℚ) (pts : List Point) (g : GridF) (c : Cell3)
    (q : Point) (hq : ((writeReps minP r pts g) c).representative = some q) :
    (q ∈ pts ∧ index3 minP r q.position = c) ∨
      ((g c).representative = some q ∧ ∀ p ∈ pts, index3 minP r p.position ≠ c) := by
  induction pts generalizing g with
  | nil =>
    right
    exact ⟨hq, by simp⟩
  | cons p pts ih =>
    rw [writeReps, List.foldl_cons] at hq
    rcases ih (gsetRep g (index3 minP r p.position) p) hq with h | ⟨hrep, hnone⟩
    · exact Or.inl ⟨List.mem_cons_of_mem _ h.1, h.2⟩
    · rw [gsetRep_rep] at hrep
      by_cases hc : c = index3 minP r p.position
      · rw [if_pos hc] at hrep
        cases hrep
        exact Or.inl ⟨List.mem_cons_self _ _, hc.symm⟩
      · rw [if_neg hc] at hrep
        refine Or.inr ⟨hrep, ?_⟩
        intro p' hp'
        rcases List.mem_cons.mp hp' with h | h
        · subst h
          exact fun he => hc he.symm
        · exact hnone p' h

theorem ginsert_rep (g : GridF) (c₀ : Cell3) (p : Point) (c : Cell3) :
    ((ginsert g c₀ p) c).representative = (g c).representative := by
  rw [ginsert]
  split
  · rfl
  · rfl

theorem bucketGrid_rep (minP : V3) (r : ℚ) (ps : List Point) (c : Cell3) :
    ((bucketGrid minP r ps) c).representative = none := by
  rw [bucketGrid]
  have key : ∀ (l : List Point) (g : GridF),
      (∀ c', (g c').representative = none) →
      ∀ c', ((l.foldl (fun g p => ginsert g (index3 minP r p.position) p) g) c').representative
        = none := by
    intro l
    induction l with
    | nil => intro g hg c'; exact hg c'
    | cons p l ih =>
      intro g hg c'
      rw [List.foldl_cons]
      exact ih _ (fun c'' => by rw [ginsert_rep]; exact hg c'') c'
  exact key ps _ (fun _ => rfl) c

theorem bucketGrid_cand (minP : V3) (r : ℚ) (ps : List Point) (c : Cell3)
    (p : Point) (hp : p ∈ ((bucketGrid minP r ps) c).candidates) :
    index3 minP r p.position = c := by
  rw [bucketGrid] at hp
  have key : ∀ (l : List Point) (g : GridF),
      (∀ c' q, q ∈ (g c').candidates → index3 minP r q.position = c') →
      ∀ c' q,
        q ∈ ((l.foldl (fun g p => ginsert g (index3 minP r p.position) p) g) c').candidates →
        index3 minP r q.position = c' := by
    intro l
    induction l with
    | nil => intro g hg c' q hq; exact hg c' q hq
    | cons p' l ih =>
      intro g hg c' q hq
      rw [List.foldl_cons] at hq
      refine ih _ ?_ c' q hq
      intro c'' q' hq'
      rw [ginsert] at hq'
      by_cases hc : c'' = index3 minP r p'.position
      · rw [if_pos hc] at hq'
        rcases List.mem_append.mp hq' with h | h
        · exact hg _ _ h
        · rw [List.mem_singleton.mp h, hc]
      · rw [if_neg hc] at hq'
        exact hg _ _ hq'
  exact key ps _ (fun c' q hq => absurd hq (List.not_mem_nil q)) c p hp

theorem mem_collectReps (g : GridF) (gc : Cell3) (p : Point)
    (hp : p ∈ collectReps g gc) :
    ∃ c : Cell3, inBounds gc c ∧ (g c).representative = some p := by
  rw [collectReps] at hp
  simp only [List.mem_flatMap, List.mem_filterMap, List.mem_range] at hp
  obtain ⟨z, hz, y, hy, x, hx, hrep⟩ := hp
  exact ⟨(x, y, z), ⟨hx, hy, hz⟩, hrep⟩

namespace Par

theorem stepItems_mem {gc a c : Cell3} (hc : c ∈ stepItems gc a) :
    inBounds gc c ∧
      ∃ v : Cell3, c = (3 * v.1 + a.1, 3 * v.2.1 + a.2.1, 3 * v.2.2 + a.2.2) := by
  rw [stepItems] at hc
  simp only [List.mem_flatMap, List.mem_filterMap, List.mem_range] at hc
  obtain ⟨z, _, y, _, x, _, hfc⟩ := hc
  split at hfc
  · cases hfc
    refine ⟨by assumption, (x, y, z), rfl⟩
  · cases hfc

/-- Two distinct cells of one partition are never Chebyshev-adjacent: their
addresses differ by a non-zero multiple of three along some axis. -/
theorem stepItems_not_adj {gc a c₁ c₂ : Cell3}
    (h1 : c₁ ∈ stepItems gc a) (h2 : c₂ ∈ stepItems gc a) (hne : c₁ ≠ c₂) :
    ¬ chebAdj c₁ c₂ := by
  obtain ⟨-, v₁, hv₁⟩ := stepItems_mem h1
  obtain ⟨-, v₂, hv₂⟩ := stepItems_mem h2
  intro hadj
  obtain ⟨hx, hy, hz⟩ := hadj
  have e11 : c₁.1 = 3 * v₁.1 + a.1 := by rw [hv₁]
  have e12 : c₁.2.1 = 3 * v₁.2.1 + a.2.1 := by rw [hv₁]
  have e13 : c₁.2.2 = 3 * v₁.2.2 + a.2.2 := by rw [hv₁]
  have e21 : c₂.1 = 3 * v₂.1 + a.1 := by rw [hv₂]
  have e22 : c₂.2.1 = 3 * v₂.2.1 + a.2.1 := by rw [hv₂]
  have e23 : c₂.2.2 = 3 * v₂.2.2 + a.2.2 := by rw [hv₂]
  have f1 : c₁.1 = c₂.1 := by omega
  have f2 : c₁.2.1 = c₂.2.1 := by omega
  have f3 : c₁.2.2 = c₂.2.2 := by omega
  exact hne (Prod.ext f1 (Prod.ext f2 f3))

/-- The offsets list `-1..=1` contains every integer of absolute value at
most one. -/
theorem mem_offsets3 {d : ℤ} (hd : d.natAbs ≤ 1) : d ∈ offsets3 := by
  rw [offsets3]
  have h : d = -1 ∨ d = 0 ∨ d = 1 := by omega
  rcases h with h | h | h
  · rw [h]; exact List.mem_cons_self _ _
  · rw [h]; exact List.mem_cons_of_mem _ (List.mem_cons_self _ _)
  · rw [h]; exact List.mem_cons_of_mem _ (List.mem_cons_of_mem _ (List.mem_cons_self _ _))

/-- Soundness of the full-box validity test: a candidate it accepts is
farther than `radius` from the representative of every in-bounds cell that
is Chebyshev-adjacent to (and distinct from) the candidate's own cell. -/
theorem isValid_sound {g : GridF} {gc : Cell3} {minP : V3} {r : ℚ} {p : Point}
    (hv : validAgainst offsets3 g gc minP r p = true)
    {c : Cell3} (hin : inBounds gc c) (hne : c ≠ index3 minP r p.position)
    (hadj : chebAdj (index3 minP r p.position) c)
    {q : Point} (hq : (g c).representative = some q) :
    qmul r r < dist2 p.position q.position := by
  obtain ⟨ha1, ha2, ha3⟩ := hadj
  obtain ⟨hb1, hb2, hb3⟩ := hin
  rw [validAgainst] at hv
  simp only [List.all_eq_true] at hv
  have hv1 := hv _ (mem_offsets3 (d := (c.2.2 : ℤ) - (index3 minP r p.position).2.2)
    (by omega))
  rw [if_pos (by omega)] at hv1
  simp only [List.all_eq_true] at hv1
  have hv2 := hv1 _ (mem_offsets3 (d := (c.2.1 : ℤ) - (index3 minP r p.position).2.1)
    (by omega))
  rw [if_pos (by omega)] at hv2
  simp only [List.all_eq_true] at hv2
  have hv3 := hv2 _ (mem_offsets3 (d := (c.1 : ℤ) - (index3 minP r p.position).1)
    (by omega))
  have hcenter : ¬ ((c.2.2 : ℤ) - (index3 minP r p.position).2.2 = 0 ∧
      (c.2.1 : ℤ) - (index3 minP r p.position).2.1 = 0 ∧
      (c.1 : ℤ) - (index3 minP r p.position).1 = 0) := by
    intro ⟨e1, e2, e3⟩
    apply hne
    have q1 : c.1 = (index3 minP r p.position).1 := by omega
    have q2 : c.2.1 = (index3 minP r p.position).2.1 := by omega
    have q3 : c.2.2 = (index3 minP r p.position).2.2 := by omega
    calc c = (c.1, c.2.1, c.2.2) := rfl
    _ = ((index3 minP r p.position).1, (index3 minP r p.position).2.1,
        (index3 minP r p.position).2.2) := by rw [q1, q2, q3]
    _ = index3 minP r p.position := rfl
  rw [if_neg hcenter, if_pos (by omega)] at hv3
  have haddr :
      ((((index3 minP r p.position).1 : ℤ) +
          ((c.1 : ℤ) - (index3 minP r p.position).1)).toNat,
        (((index3 minP r p.position).2.1 : ℤ) +
          ((c.2.1 : ℤ) - (index3 minP r p.position).2.1)).toNat,
        (((index3 minP r p.position).2.2 : ℤ) +
          ((c.2.2 : ℤ) - (index3 minP r p.position).2.2)).toNat) = c := by
    have q1 : (((index3 minP r p.position).1 : ℤ) +
        ((c.1 : ℤ) - (index3 minP r p.position).1)).toNat = c.1 := by omega
    have q2 : (((index3 minP r p.position).2.1 : ℤ) +
        ((c.2.1 : ℤ) - (index3 minP r p.position).2.1)).toNat = c.2.1 := by omega
    have q3 : (((index3 minP r p.position).2.2 : ℤ) +
        ((c.2.2 : ℤ) - (index3 minP r p.position).2.2)).toNat = c.2.2 := by omega
    calc _ = (c.1, c.2.1, c.2.2) := by rw [q1, q2, q3]
    _ = c := rfl
  rw [haddr, hq] at hv3
  exact of_decide_eq_true hv3

/-- Invariant of the parallel sampler's state, established by `new` and
preserved by `step`:
* candidates and representatives sit in the cell of their own index,
* representatives of distinct Chebyshev-adjacent in-bounds cells are more
  than `radius` apart (squared comparison),
* the pending partition offsets are in `(0..3)³`, duplicate-free, and no
  cell of a pending partition has a representative yet,
* while no step has run, the grid has no representative at all. -/
structure PInv (s : PState) : Prop where
  cand : ∀ c p, p ∈ (s.grid c).candidates → index3 s.gridMin s.radius p.position = c
  rep : ∀ c p, (s.grid c).representative = some p → index3 s.gridMin s.radius p.position = c
  sep : ∀ c₁ c₂, inBounds s.gridCount c₁ → inBounds s.gridCount c₂ → c₁ ≠ c₂ →
    chebAdj c₁ c₂ → ∀ p q, (s.grid c₁).representative = some p →
    (s.grid c₂).representative = some q →
    qmul s.radius s.radius < dist2 p.position q.position
  offLt : ∀ a ∈ s.partitions, a.1 < 3 ∧ a.2.1 < 3 ∧ a.2.2 < 3
  nodup : s.partitions.Nodup
  fresh : ∀ c p, (s.grid c).representative = some p →
    (c.1 % 3, c.2.1 % 3, c.2.2 % 3) ∉ s.partitions
  lenLe : s.partitions.length ≤ s.partitionsCount
  virgin : s.partitions.length = s.partitionsCount →
    ∀ c, (s.grid c).representative = none

theorem head?_mem {α : Type} {l : List α} {a : α} (h : l.head? = some a) : a ∈ l := by
  cases l with
  | nil => cases h
  | cons b l => cases h; exact List.mem_cons_self _ _

/-- Writing a batch of picks taken from the candidate lists of one
partition's cells preserves the invariant, provided every pick is valid
against the pre-step representatives of adjacent cells. -/
theorem PInv_write (s : PState) (h : PInv s) (address : Cell3) (rest : List Cell3)
    (hp : s.partitions = address :: rest) (w : List Point)
    (hw : ∀ pt ∈ w, ∃ ci ∈ stepItems s.gridCount address, pt ∈ (s.grid ci).candidates)
    (hval : ∀ pt ∈ w, ∀ c, inBounds s.gridCount c →
      c ≠ index3 s.gridMin s.radius pt.position →
      chebAdj (index3 s.gridMin s.radius pt.position) c →
      ∀ q, (s.grid c).representative = some q →
      qmul s.radius s.radius < dist2 pt.position q.position) :
    PInv { s with partitions := rest,
                  grid := writeReps s.gridMin s.radius w s.grid } := by
  have hcell : ∀ pt ∈ w, index3 s.gridMin s.radius pt.position ∈ stepItems s.gridCount address := by
    intro pt hpt
    obtain ⟨ci, hci, hmem⟩ := hw pt hpt
    rw [h.cand ci pt hmem]
    exact hci
  have haddr3 : address.1 < 3 ∧ address.2.1 < 3 ∧ address.2.2 < 3 :=
    h.offLt address (by rw [hp]; exact List.mem_cons_self _ _)
  have hanotin : address ∉ rest := by
    have := h.nodup
    rw [hp, List.nodup_cons] at this
    exact this.1
  refine ⟨?_, ?_, ?_, ?_, ?_, ?_, ?_, ?_⟩
  · intro c p hmem
    rw [writeReps_cand] at hmem
    exact h.cand c p hmem
  · intro c p hrep
    rcases writeReps_rep _ _ _ _ _ _ hrep with ⟨-, hidx⟩ | ⟨hold, -⟩
    · exact hidx
    · exact h.rep c p hold
  · intro c₁ c₂ hin₁ hin₂ hne hadj p q hrep₁ hrep₂
    rcases writeReps_rep _ _ _ _ _ _ hrep₁ with ⟨hpw, hpidx⟩ | ⟨hpold, -⟩
    · rcases writeReps_rep _ _ _ _ _ _ hrep₂ with ⟨hqw, hqidx⟩ | ⟨hqold, -⟩
      · -- both freshly written: their cells lie in the same partition,
        -- hence are not adjacent
        exact absurd hadj (stepItems_not_adj (hpidx ▸ hcell p hpw)
          (hqidx ▸ hcell q hqw) hne)
      · exact hval p hpw c₂ hin₂ (fun he => hne (he ▸ hpidx).symm) (hpidx ▸ hadj) q hqold
    · rcases writeReps_rep _ _ _ _ _ _ hrep₂ with ⟨hqw, hqidx⟩ | ⟨hqold, -⟩
      · rw [dist2_symm]
        exact hval q hqw c₁ hin₁ (fun he => hne (he ▸ hqidx)) (hqidx ▸ (chebAdj_symm hadj)) p hpold
      · exact h.sep c₁ c₂ hin₁ hin₂ hne hadj p q hpold hqold
  · intro a ha
    exact h.offLt a (by rw [hp]; exact List.mem_cons_of_mem _ ha)
  · have := h.nodup
    rw [hp, List.nodup_cons] at this
    exact this.2
  · intro c p hrep
    rcases writeReps_rep _ _ _ _ _ _ hrep with ⟨hpw, hpidx⟩ | ⟨hold, -⟩
    · have hitem := hpidx ▸ hcell p hpw
      obtain ⟨-, v, hv⟩ := stepItems_mem hitem
      have e1 : c.1 = 3 * v.1 + address.1 := by rw [hv]
      have e2 : c.2.1 = 3 * v.2.1 + address.2.1 := by rw [hv]
      have e3 : c.2.2 = 3 * v.2.2 + address.2.2 := by rw [hv]
      have hmod : (c.1 % 3, c.2.1 % 3, c.2.2 % 3) = address := by
        refine Prod.ext ?_ (Prod.ext ?_ ?_)
        · simp only; omega
        · simp only; omega
        · simp only; omega
      rw [hmod]
      exact hanotin
    · have := h.fresh c p hold
      rw [hp] at this
      exact fun hmem => this (List.mem_cons_of_mem _ hmem)
  · have hle := h.lenLe
    rw [hp] at hle
    simp only [List.length_cons] at hle
    show rest.length ≤ s.partitionsCount
    omega
  · intro hlen
    exfalso
    have hle := h.lenLe
    rw [hp] at hle
    simp only [List.length_cons] at hle
    have hlen' : rest.length = s.partitionsCount := hlen
    omega

/-- `step` preserves the state invariant. -/
theorem PInv_step (s : PState) (h : PInv s) : PInv (step s).2 := by
  rcases hp : s.partitions with _ | ⟨address, rest⟩
  · have hstep : (step s).2 = s := by rw [step, hp]
    rw [hstep]
    exact h
  · rw [step, hp]
    simp only
    split
    · -- first step: every processed cell adopts its first candidate;
      -- no representative exists yet
      have hvirgin : ∀ c, (s.grid c).representative = none := by
        apply h.virgin
        rw [hp]
        simp only [List.length_cons]
        omega
      refine PInv_write s h address rest hp _ ?_ ?_
      · intro pt hpt
        rw [List.mem_filterMap] at hpt
        obtain ⟨ci, hci, hhead⟩ := hpt
        exact ⟨ci, hci, head?_mem hhead⟩
      · intro pt hpt c hin hne hadj q hq
        rw [hvirgin c] at hq
        cases hq
    · -- later steps: each pick passed the validity test against the
      -- pre-step grid
      refine PInv_write s h address rest hp _ ?_ ?_
      · intro pt hpt
        rw [List.mem_filterMap] at hpt
        obtain ⟨ci, hci, hfind⟩ := hpt
        exact ⟨ci, hci, List.mem_of_find?_eq_some hfind⟩
      · intro pt hpt c hin hne hadj q hq
        rw [List.mem_filterMap] at hpt
        obtain ⟨ci, hci, hfind⟩ := hpt
        have hvalid := List.find?_some hfind
        exact isValid_sound hvalid hin hne hadj hq

/-- `step` does not change the grid geometry fields. -/
theorem step_const (s : PState) :
    (step s).2.gridCount = s.gridCount ∧ (step s).2.gridMin = s.gridMin ∧
      (step s).2.radius = s.radius := by
  rcases hp : s.partitions with _ | ⟨address, rest⟩
  · rw [step, hp]
    exact ⟨rfl, rfl, rfl⟩
  · rw [step, hp]
    simp only
    split
    · exact ⟨rfl, rfl, rfl⟩
    · exact ⟨rfl, rfl, rfl⟩

theorem runSteps_const (k : ℕ) (s : PState) :
    (runSteps k s).gridCount = s.gridCount ∧ (runSteps k s).gridMin = s.gridMin ∧
      (runSteps k s).radius = s.radius := by
  induction k generalizing s with
  | zero => exact ⟨rfl, rfl, rfl⟩
  | succ k ih =>
    rw [runSteps]
    obtain ⟨h1, h2, h3⟩ := ih (step s).2
    obtain ⟨g1, g2, g3⟩ := step_const s
    exact ⟨h1.trans g1, h2.trans g2, h3.trans g3⟩

theorem PInv_runSteps (k : ℕ) (s : PState) (h : PInv s) : PInv (runSteps k s) := by
  induction k generalizing s with
  | zero => exact h
  | succ k ih =>
    rw [runSteps]
    exact ih _ (PInv_step s h)

theorem allOffsets_lt : ∀ v ∈ allOffsets, v.1 < 3 ∧ v.2.1 < 3 ∧ v.2.2 < 3 := by decide

theorem allOffsets_nodup : allOffsets.Nodup := by decide

/-- The invariant holds right after `new`, for any pop order that is a
permutation of the valid partition offsets. -/
theorem PInv_new (inputs : List Point) (r : ℚ) (order : List Cell3)
    (horder : order.Perm (partitionOffsets (gridCountOf inputs r))) :
    PInv (new inputs r order) := by
  have hgrid : ∀ c, (new inputs r order).grid c = bucketGrid (minOf inputs) r inputs c :=
    fun _ => rfl
  refine ⟨?_, ?_, ?_, ?_, ?_, ?_, ?_, ?_⟩
  · intro c p hmem
    exact bucketGrid_cand _ _ _ _ _ hmem
  · intro c p hrep
    rw [hgrid, bucketGrid_rep] at hrep
    cases hrep
  · intro c₁ c₂ _ _ _ _ p q hrep₁ hrep₂
    rw [hgrid, bucketGrid_rep] at hrep₁
    cases hrep₁
  · intro a ha
    have hmem := horder.mem_iff.mp ha
    rw [partitionOffsets, List.mem_filter] at hmem
    exact allOffsets_lt a hmem.1
  · exact horder.nodup_iff.mpr (allOffsets_nodup.filter _)
  · intro c p hrep
    rw [hgrid, bucketGrid_rep] at hrep
    cases hrep
  · exact le_refl _
  · intro _ c
    rw [hgrid]
    exact bucketGrid_rep _ _ _ _

end Par

set_option maxRecDepth 8000

/-- C10: once the partition queue is empty (`is_completed()`), every
further `step()` returns the `anyhow` error and leaves the state — in
particular the grid and the result of `samples()` — unchanged. -/
theorem parallel_step_completed (s : Par.PState) (h : Par.isCompleted s = true) :
    Par.step s = (some "no address", s) ∧ (Par.step s).2.grid = s.grid ∧
      Par.samples (Par.step s).2 = Par.samples s := by
  rw [Par.isCompleted, List.isEmpty_iff] at h
  have hstep : Par.step s = (some "no address", s) := by rw [Par.step, h]
  exact ⟨hstep, by rw [hstep], by rw [hstep]⟩

/-- Witness for C10: a freshly constructed sampler with an exhausted
partition queue errors on `step()` with the state unchanged. -/
theorem parallel_step_completed_witness :
    Par.isCompleted (Par.new [] 1 []) = true ∧
      Par.step (Par.new [] 1 []) = (some "no address", Par.new [] 1 []) :=
  ⟨rfl, (parallel_step_completed (Par.new [] 1 []) rfl).1⟩

/-- C2 counterexample input: radius 10, three collinear points.  The two
cell-0 candidates are listed first so the seeding step adopts the point at
`x = 5`; the point at `x = 12` lands two cells away (cell 2), outside the
`±1` neighbourhood checked by `is_valid`, yet only `7 < 10·(1−1e−9)` away. -/
def cexInputs : List Point :=
  [⟨⟨5, 0, 0⟩, none, none⟩, ⟨⟨0, 0, 0⟩, none, none⟩, ⟨⟨12, 0, 0⟩, none, none⟩]

/-- A pop order of the three valid partition offsets of the 3×1×1 grid of
`cexInputs` (the source shuffles them randomly, so this order can occur). -/
def cexOrder : List Cell3 := [(0, 0, 0), (2, 0, 0), (1, 0, 0)]

/-- C2 counterexample: after exactly `max_iterations()` steps the parallel
sampler retains the points at `x = 5` and `x = 12`, whose distance 7 is
not greater than `10·(1−1e−9)`: the claimed separation fails because the
`is_valid` scan of `±1` cells cannot see a representative two cells away
(cell size is `r/√3`, so conflicting points may span up to `√3 ≈ 1.73`
cells). -/
theorem parallel_separation_cex :
    cexOrder.Perm (Par.partitionOffsets (gridCountOf cexInputs 10)) ∧
    Par.samples (Par.runSteps (Par.maxIterations (Par.new cexInputs 10 cexOrder))
        (Par.new cexInputs 10 cexOrder)) =
      [⟨⟨5, 0, 0⟩, none, none⟩, ⟨⟨12, 0, 0⟩, none, none⟩] ∧
    ¬ (((10 : ℚ) * (1 - 1 / 1000000000)) ^ 2 <
        dist2 ⟨5, 0, 0⟩ ⟨12, 0, 0⟩) := by
  refine ⟨by decide, by decide, ?_⟩
  rw [dist2_eq]
  norm_num

/-- C2 (amended): after exactly `max_iterations()` calls to `step()`, any
two distinct retained points whose grid cells are Chebyshev-adjacent (at
most one cell apart along every axis) are more than `r·(1−1e−9)` apart.
(The unrestricted separation claimed by the spec is refuted by
`parallel_separation_cex`: conflicts two cells apart are not checked.) -/
theorem parallel_adjacent_separation
    (inputs : List Point) (r : ℚ) (order : List Cell3)
    (hr : 0 < r)
    (horder : order.Perm (Par.partitionOffsets (gridCountOf inputs r)))
    (p q : Point)
    (hp : p ∈ Par.samples (Par.runSteps (Par.maxIterations (Par.new inputs r order))
      (Par.new inputs r order)))
    (hq : q ∈ Par.samples (Par.runSteps (Par.maxIterations (Par.new inputs r order))
      (Par.new inputs r order)))
    (hne : p ≠ q)
    (hadj : chebAdj (index3 (minOf inputs) r p.position)
      (index3 (minOf inputs) r q.position)) :
    (r * (1 - 1 / 1000000000)) ^ 2 < dist2 p.position q.position := by
  have hInv := Par.PInv_runSteps (Par.maxIterations (Par.new inputs r order))
    (Par.new inputs r order) (Par.PInv_new inputs r order horder)
  obtain ⟨cgc, cgm, crad⟩ := Par.runSteps_const (Par.maxIterations (Par.new inputs r order))
    (Par.new inputs r order)
  set s := Par.runSteps (Par.maxIterations (Par.new inputs r order))
    (Par.new inputs r order) with hs
  have hgm : s.gridMin = minOf inputs := cgm
  have hrad : s.radius = r := crad
  obtain ⟨cp, hinp, hrepp⟩ := mem_collectReps s.grid s.gridCount p hp
  obtain ⟨cq, hinq, hrepq⟩ := mem_collectReps s.grid s.gridCount q hq
  have hcp : index3 (minOf inputs) r p.position = cp := by
    rw [← hgm, ← hrad]
    exact hInv.rep cp p hrepp
  have hcq : index3 (minOf inputs) r q.position = cq := by
    rw [← hgm, ← hrad]
    exact hInv.rep cq q hrepq
  by_cases hcc : cp = cq
  · exfalso
    rw [hcc] at hrepp
    exact hne (Option.some.inj (hrepp.symm.trans hrepq))
  · have hadj' : chebAdj cp cq := by
      rw [← hcp, ← hcq]
      exact hadj
    have hsep := hInv.sep cp cq hinp hinq hcc hadj' p q hrepp hrepq
    rw [hrad, qmul_eq] at hsep
    have heps : ((1 : ℚ) - 1 / 1000000000) ^ 2 < 1 := by norm_num
    calc (r * (1 - 1 / 1000000000)) ^ 2
        = r ^ 2 * (1 - 1 / 1000000000) ^ 2 := by ring
    _ < r ^ 2 * 1 := by
        exact mul_lt_mul_of_pos_left heps (by positivity)
    _ = r * r := by ring
    _ < dist2 p.position q.position := hsep

/-- Witness input for the amended C2: two points in adjacent cells. -/
def witInputs : List Point := [⟨⟨0, 0, 0⟩, none, none⟩, ⟨⟨11, 0, 0⟩, none, none⟩]

/-- Witness for the amended C2 at a concrete input: both points of
`witInputs` are retained, their cells are adjacent, and the theorem yields
their separation. -/
theorem parallel_adjacent_separation_witness :
    (0 : ℚ) < 10 ∧
    (⟨⟨0, 0, 0⟩, none, none⟩ : Point) ∈
      Par.samples (Par.runSteps
        (Par.maxIterations (Par.new witInputs 10 (Par.partitionOffsets (gridCountOf witInputs 10))))
        (Par.new witInputs 10 (Par.partitionOffsets (gridCountOf witInputs 10)))) ∧
    (⟨⟨11, 0, 0⟩, none, none⟩ : Point) ∈
      Par.samples (Par.runSteps
        (Par.maxIterations (Par.new witInputs 10 (Par.partitionOffsets (gridCountOf witInputs 10))))
        (Par.new witInputs 10 (Par.partitionOffsets (gridCountOf witInputs 10)))) ∧
    chebAdj (index3 (minOf witInputs) 10 (⟨0, 0, 0⟩ : V3))
      (index3 (minOf witInputs) 10 (⟨11, 0, 0⟩ : V3)) ∧
    ((10 : ℚ) * (1 - 1 / 1000000000)) ^ 2 <
      dist2 (⟨0, 0, 0⟩ : V3) (⟨11, 0, 0⟩ : V3) :=
  ⟨by decide, by decide, by decide, by decide,
    parallel_adjacent_separation witInputs 10
      (Par.partitionOffsets (gridCountOf witInputs 10)) (by decide) (List.Perm.refl _)
      ⟨⟨0, 0, 0⟩, none, none⟩ ⟨⟨11, 0, 0⟩, none, none⟩
      (by decide) (by decide) (by decide) (by decide)⟩

/-! ## Serial Poisson-disk sampler (`poisson_disk_sampling.rs`)

The sampler's `indices` set is a Rust `HashSet` with arbitrary iteration
order; the embedding keeps a list (built in the grid scan order `z` outer,
`y`, `x`, matching the `flat_map` chain that fills the set) and resolves
`indices.iter().next()` to the list head — one of the orders the source
can exhibit.  The `while` loop becomes fuel-based recursion (`none` on
fuel exhaustion, never reached at the fuel used in the theorems below);
the two `unwrap` panics become `none` results. -/

namespace Serial

structure SState where
  radius : ℚ
  grid : GridF
  gridSize : Cell3
  minP : V3
  indices : List Cell3
  actives : List Point

/-- The frontier's neighbour enumeration: in-bounds, non-center, unvisited
cells within `-1..=1` of `i`, in loop order `dz`, `dy`, `dx`. -/
def neighborCells (g : GridF) (gs : Cell3) (i : Cell3) : List Cell3 :=
  offsets3.flatMap fun dz =>
    let z := (i.2.2 : ℤ) + dz
    if 0 ≤ z ∧ z < (gs.2.2 : ℤ) then
      offsets3.flatMap fun dy =>
        let y := (i.2.1 : ℤ) + dy
        if 0 ≤ y ∧ y < (gs.2.1 : ℤ) then
          offsets3.filterMap fun dx =>
            if dz = 0 ∧ dy = 0 ∧ dx = 0 then none
            else
              let x := (i.1 : ℤ) + dx
              if 0 ≤ x ∧ x < (gs.1 : ℤ) then
                if (g (x.toNat, y.toNat, z.toNat)).representative.isSome then none
                else some (x.toNat, y.toNat, z.toNat)
              else none
        else []
    else []

/-- The serial sampler's `is_valid`.  Its loops are `for d_ in -1..1`,
i.e. only the offsets `{-1, 0}` (`offsets2`) — unlike the `-1..=1` used
both by its own neighbour enumeration and by the parallel sampler. -/
def isValidS (s : SState) (p : Point) : Bool :=
  validAgainst offsets2 s.grid s.gridSize s.minP s.radius p

/-- The `insert` closure: push onto `actives`, set the representative of
the point's cell, remove that cell from `indices`. -/
def insertPt (s : SState) (p : Point) : SState :=
  let i := index3 s.minP s.radius p.position
  { s with actives := s.actives ++ [p]
           grid := gsetRep s.grid i p
           indices := s.indices.erase i }

/-- The `while !indices.is_empty()` loop.  In the `actives`-empty branch a
fresh cell is popped and its first valid candidate adopted; otherwise the
head of `actives` enumerates its unvisited neighbours and adopts the first
candidate `q` with `r/2 ≤ ‖current−q‖ ≤ r` (squared comparisons) that is
valid, else the head is dropped (`actives.remove(0)`).  Rust's parallel
`find_any` is resolved to the first match. -/
def loop : ℕ → SState → Option SState
  | 0, _ => none
  | fuel + 1, s =>
    if s.indices.isEmpty then some s
    else
      match s.actives with
      | [] =>
        match s.indices with
        | [] => some s
        | i :: rest =>
          let s1 := { s with indices := rest }
          match (s.grid i).candidates.find? (fun p => isValidS s p) with
          | some p => loop fuel (insertPt s1 p)
          | none => loop fuel s1
      | current :: _ =>
        let i := index3 s.minP s.radius current.position
        let next := (neighborCells s.grid s.gridSize i).findSome? fun c =>
          (s.grid c).candidates.find? fun q =>
            decide (qmul (qdiv s.radius 2) (qdiv s.radius 2) ≤
                dist2 current.position q.position) &&
              decide (dist2 current.position q.position ≤ qmul s.radius s.radius) &&
              isValidS s q
        match next with
        | some q => loop fuel (insertPt s q)
        | none => loop fuel { s with actives := s.actives.tail }

/-- `PoissonDiskSampling::sample`.  Returns `none` when the code would
panic (`indices.iter().next().unwrap()` on an empty grid, i.e. for an
empty input slice) or when the fuel runs out. -/
def sample (inputs : List Point) (r : ℚ) (fuel : ℕ) : Option (List Point) :=
  let minP := minOf inputs
  let gs := gridCountOf inputs r
  let g0 := bucketGrid minP r inputs
  let indices0 :=
    (List.range gs.2.2).flatMap fun z =>
      (List.range gs.2.1).flatMap fun y =>
        (List.range gs.1).filterMap fun x =>
          if (g0 (x, y, z)).candidates.isEmpty then none else some (x, y, z)
  match indices0 with
  | [] => none
  | i :: rest =>
    match (g0 i).candidates.head? with
    | none => none
    | some start =>
      let s0 : SState :=
        { radius := r, grid := g0, gridSize := gs, minP := minP,
          indices := rest, actives := [] }
      (loop fuel (insertPt s0 start)).map fun s => collectReps s.grid s.gridSize

end Serial

set_option exponentiation.threshold 1100

/-- C4: `sample` on an empty input slice.  The claim says it returns an
empty sequence without failing; the code instead panics: with no input the
`indices` set is empty and `indices.iter().next().unwrap()` (line 135 of
`poisson_disk_sampling.rs`) unwraps `None`.  The embedding returns `none`
(the panic), for every radius and fuel. -/
theorem serial_sample_empty (r : ℚ) (fuel : ℕ) : Serial.sample [] r fuel = none := rfl

/-- C1 failing input: radius 10, one point at `(6,0,0)` (grid cell
`(1,0,0)`) and one at `(0,6,0)` (grid cell `(0,1,0)`). -/
def serialCexInputs : List Point :=
  [⟨⟨6, 0, 0⟩, none, none⟩, ⟨⟨0, 6, 0⟩, none, none⟩]

/-- C1: the serial sampler retains both points of `serialCexInputs`, which
are only `√72 ≈ 8.49 < 10·(1−1e−9)` apart, refuting the claimed pairwise
separation.  The last two conjuncts show the second point's full 27-cell
neighbourhood contains the first point's cell with a representative within
`r` — the `for d in -1..1` loops of `is_valid` (offsets `{-1,0}` only)
never look at positive offsets, so the candidate is accepted anyway. -/
theorem serial_sample_cex :
    Serial.sample serialCexInputs 10 100 =
      some [⟨⟨6, 0, 0⟩, none, none⟩, ⟨⟨0, 6, 0⟩, none, none⟩] ∧
    ¬ (((10 : ℚ) * (1 - 1 / 1000000000)) ^ 2 < dist2 ⟨6, 0, 0⟩ ⟨0, 6, 0⟩) ∧
    chebAdj (index3 (minOf serialCexInputs) 10 ⟨0, 6, 0⟩)
      (index3 (minOf serialCexInputs) 10 ⟨6, 0, 0⟩) ∧
    dist2 ⟨6, 0, 0⟩ ⟨0, 6, 0⟩ ≤ qmul 10 10 := by
  refine ⟨by decide, ?_, by decide, by decide⟩
  rw [dist2_eq]
  norm_num

/-! ## Pipeline loop body (`process_lod` in `lib.rs`, lines 224–258)

One iteration of `process_lod`'s loop, after `next = parent.divide(...)`:
`has_over_threshold = any(len >= threshold)`; every bucket is emitted
unchanged when the flag is false, otherwise every bucket is Poisson-sampled
at the level's radius; the loop breaks after emission iff the flag is
false.  The returned `Bool` is the flag (`true` = the loop continues). -/

/-- `LODKey`: the `(i32, i32, i32)` octree key. -/
abbrev KeyI := ℤ × ℤ × ℤ

def processLevel (thr : ℕ) (radius : ℚ) (buckets : List (KeyI × List Point))
    (fuel : ℕ) : Option (List (KeyI × List Point) × Bool) :=
  let hasOver := buckets.any fun u => thr ≤ u.2.length
  (buckets.mapM fun ku =>
    if !hasOver then some (ku.1, ku.2)
    else (Serial.sample ku.2 radius fuel).map fun pts => (ku.1, pts)).map
    fun l => (l, hasOver)

theorem mapM_pair_id {α β : Type} (l : List (α × β)) :
    (l.mapM fun ku => some ((ku.1, ku.2) : α × β)) = some l := by
  induction l with
  | nil => rfl
  | cons a l ih => rw [List.mapM_cons, ih]; rfl

/-- C5 counterexample: with threshold 1 and a single child bucket holding
exactly one point (= threshold, so "at most threshold"), the loop body
still Poisson-samples the bucket and the continue flag is `true` — the
loop does not stop, because the code tests `len >= threshold`, not
`len > threshold`. -/
theorem processLevel_cex :
    processLevel 1 10 [((0, 0, 0), [⟨⟨0, 0, 0⟩, none, none⟩])] 100 =
      some ([((0, 0, 0), [⟨⟨0, 0, 0⟩, none, none⟩])], true) ∧
    [(((0, 0, 0) : KeyI), [(⟨⟨0, 0, 0⟩, none, none⟩ : Point)])].length = 1 ∧
    (((0, 0, 0) : KeyI), [(⟨⟨0, 0, 0⟩, none, none⟩ : Point)]).2.length ≤ 1 := by
  refine ⟨by decide, by decide, by decide⟩

/-- C5 (amended): if every child bucket holds strictly fewer than
`threshold` points, each is emitted unchanged and the loop stops
(flag `false`); if some bucket reaches the threshold, every child bucket
is Poisson-sampled at the level's radius before emission and the loop
continues (flag `true`). -/
theorem processLevel_spec (thr : ℕ) (radius : ℚ) (buckets : List (KeyI × List Point))
    (fuel : ℕ) :
    ((∀ ku ∈ buckets, ku.2.length < thr) →
      processLevel thr radius buckets fuel = some (buckets, false)) ∧
    ((∃ ku ∈ buckets, thr ≤ ku.2.length) →
      processLevel thr radius buckets fuel =
        (buckets.mapM fun ku =>
          (Serial.sample ku.2 radius fuel).map fun pts => (ku.1, pts)).map
          fun l => (l, true)) := by
  constructor
  · intro hall
    have hov : (buckets.any fun u => thr ≤ u.2.length) = false := by
      rw [List.any_eq_false]
      intro u hu
      simpa using Nat.not_le.mpr (hall u hu)
    rw [processLevel]
    simp only [hov, Bool.not_false, if_true]
    rw [mapM_pair_id]
    rfl
  · intro ⟨ku, hku, hle⟩
    have hov : (buckets.any fun u => thr ≤ u.2.length) = true := by
      rw [List.any_eq_true]
      exact ⟨ku, hku, by simpa using hle⟩
    rw [processLevel]
    simp only [hov, Bool.not_true, Bool.false_eq_true, if_false]

/-- Witness for the amended C5, both branches at concrete inputs: a bucket
below threshold is emitted unchanged with the stop flag, and a bucket at
threshold is routed through the sampler with the continue flag. -/
theorem processLevel_spec_witness :
    processLevel 2 10 [((0, 0, 0), [⟨⟨0, 0, 0⟩, none, none⟩])] 100 =
      some ([((0, 0, 0), [⟨⟨0, 0, 0⟩, none, none⟩])], false) ∧
    processLevel 1 10 [((0, 0, 0), [⟨⟨0, 0, 0⟩, none, none⟩])] 100 =
      (([((0, 0, 0), [⟨⟨0, 0, 0⟩, none, none⟩])].mapM fun ku =>
        (Serial.sample ku.2 10 100).map fun pts => (ku.1, pts)).map
        fun l => (l, true)) :=
  ⟨(processLevel_spec 2 10 _ 100).1 (by decide),
   (processLevel_spec 1 10 _ 100).2
     ⟨((0, 0, 0), [⟨⟨0, 0, 0⟩, none, none⟩]), by decide, by decide⟩⟩

/-! ## Octree level map (`point_cloud_map.rs`) -/

/-- Finite-coordinate bounding box as used by the pipeline (the
`BoundingBox` fields reached from `divide` are plain `f64` values). -/
structure QBox where
  bmin : V3
  bmax : V3
  deriving DecidableEq, Repr

/-- `BoundingBox::size` (componentwise `max − min`). -/
def QBox.size (b : QBox) : V3 :=
  ⟨qsub b.bmax.x b.bmin.x, qsub b.bmax.y b.bmin.y, qsub b.bmax.z b.bmin.z⟩

/-- `BoundingBox::max_size` = `size.x.max(size.y).max(size.z)`. -/
def QBox.maxSize (b : QBox) : ℚ :=
  qmax (qmax b.size.x b.size.y) b.size.z

/-- `PointCloudMap`: level, bounds, and the key → bucket map.  The Rust
`HashMap` (arbitrary iteration order) is embedded as an association list
with distinct keys; `divide` fills it in first-seen key order. -/
structure PointCloudMap where
  lod : ℕ
  bounds : QBox
  map : List (KeyI × List Point)

/-- Rust's `as i32` cast of a (floored) `f64`: saturating at the `i32`
range. -/
def i32sat (x : ℤ) : ℤ :=
  if x < -(2 ^ 31) then -(2 ^ 31) else if 2 ^ 31 - 1 < x then 2 ^ 31 - 1 else x

/-- The child key `divide` computes for a point:
`((p − min) / unit).floor() as i32`, componentwise, with
`unit = max_size / 2^(lod+1)`.  There is no clamping. -/
def divideKey (bounds : QBox) (lod : ℕ) (p : V3) : KeyI :=
  let unit := qdiv bounds.maxSize ((2 : ℚ) ^ (lod + 1))
  (i32sat (Rat.floor (qdiv (qsub p.x bounds.bmin.x) unit)),
   i32sat (Rat.floor (qdiv (qsub p.y bounds.bmin.y) unit)),
   i32sat (Rat.floor (qdiv (qsub p.z bounds.bmin.z) unit)))

/-- `next.entry(key).or_insert_with(Vec::new).push(v)` on the association
list: append to the bucket of `k` if present, else add a new bucket. -/
def upsert : List (KeyI × List Point) → KeyI → Point → List (KeyI × List Point)
  | [], k, p => [(k, [p])]
  | (k', ps) :: rest, k, p =>
    if k' = k then (k', ps ++ [p]) :: rest else (k', ps) :: upsert rest k p

/-- `PointCloudMap::divide`: rebucket each point of every parent bucket
larger than `threshold` under its child key; smaller buckets are dropped. -/
def divide (m : PointCloudMap) (threshold : ℕ) : PointCloudMap :=
  { lod := m.lod + 1
    bounds := m.bounds
    map := m.map.foldl (fun next ku =>
      if threshold < ku.2.length then
        ku.2.foldl (fun next p => upsert next (divideKey m.bounds m.lod p.position) p) next
      else next) [] }

/-- The key the claim says `divide` computes: the same floor, clamped into
`[0, 2^(lod+1) − 1]` componentwise. -/
def divideKeyClamped (bounds : QBox) (lod : ℕ) (p : V3) : KeyI :=
  let d : ℤ := 2 ^ (lod + 1) - 1
  let k := divideKey bounds lod p
  (max 0 (min d k.1), max 0 (min d k.2.1), max 0 (min d k.2.2))

/-- Soundness of `upsert` grouping: if every bucket already maps only
points with that bucket's key, inserting a point under its own key keeps
it that way. -/
theorem upsert_sound (l : List (KeyI × List Point)) (k₀ : KeyI) (p₀ : Point)
    (keyOf : Point → KeyI) (hk : keyOf p₀ = k₀)
    (hl : ∀ kp ∈ l, ∀ p ∈ kp.2, keyOf p = kp.1) :
    ∀ kp ∈ upsert l k₀ p₀, ∀ p ∈ kp.2, keyOf p = kp.1 := by
  induction l with
  | nil =>
    intro kp hkp p hp
    rw [upsert, List.mem_singleton] at hkp
    subst hkp
    rw [List.mem_singleton] at hp
    subst hp
    exact hk
  | cons hd tl ih =>
    obtain ⟨k', ps⟩ := hd
    intro kp hkp p hp
    rw [upsert] at hkp
    by_cases hke : k' = k₀
    · rw [if_pos hke] at hkp
      rcases List.mem_cons.mp hkp with heq | hmem
      · subst heq
        rcases List.mem_append.mp hp with hmem' | hmem'
        · exact hl (k', ps) (List.mem_cons_self _ _) p hmem'
        · rw [List.mem_singleton] at hmem'
          subst hmem'
          rw [hk]
          exact hke.symm
      · exact hl kp (List.mem_cons_of_mem _ hmem) p hp
    · rw [if_neg hke] at hkp
      rcases List.mem_cons.mp hkp with heq | hmem
      · subst heq
        exact hl (k', ps) (List.mem_cons_self _ _) p hp
      · exact ih (fun kp' hkp' => hl kp' (List.mem_cons_of_mem _ hkp')) kp hmem p hp

/-- C3 (amended): every point `p` emitted by `divide` sits in the bucket
of exactly the key `⌊(p − min)/unit⌋` (componentwise, `as i32`), with no
clamping.  (The clamped variant of the claim is refuted by
`divide_clamp_cex`: a point on the bounding box's max face lands in cell
`2^(lod+1)`, outside `[0, 2^(lod+1) − 1]`.) -/
theorem divide_key_sound (m : PointCloudMap) (threshold : ℕ)
    (k : KeyI) (pts : List Point) (hmem : (k, pts) ∈ (divide m threshold).map)
    (p : Point) (hp : p ∈ pts) :
    k = divideKey m.bounds m.lod p.position := by
  rw [divide] at hmem
  simp only at hmem
  have key : ∀ (buckets : List (KeyI × List Point)) (acc : List (KeyI × List Point)),
      (∀ kp ∈ acc, ∀ q ∈ kp.2, divideKey m.bounds m.lod q.position = kp.1) →
      ∀ kp ∈ buckets.foldl (fun next ku =>
        if threshold < ku.2.length then
          ku.2.foldl (fun next p => upsert next (divideKey m.bounds m.lod p.position) p) next
        else next) acc, ∀ q ∈ kp.2, divideKey m.bounds m.lod q.position = kp.1 := by
    intro buckets
    induction buckets with
    | nil => intro acc hacc kp hkp q hq; exact hacc kp hkp q hq
    | cons bu tl ih =>
      intro acc hacc kp hkp q hq
      rw [List.foldl_cons] at hkp
      refine ih _ ?_ kp hkp q hq
      split
      · have inner : ∀ (pl : List Point) (acc' : List (KeyI × List Point)),
            (∀ kp' ∈ acc', ∀ q' ∈ kp'.2, divideKey m.bounds m.lod q'.position = kp'.1) →
            ∀ kp' ∈ pl.foldl
              (fun next p => upsert next (divideKey m.bounds m.lod p.position) p) acc',
            ∀ q' ∈ kp'.2, divideKey m.bounds m.lod q'.position = kp'.1 := by
          intro pl
          induction pl with
          | nil => intro acc' hacc' kp' hkp' q' hq'; exact hacc' kp' hkp' q' hq'
          | cons ph pt ihp =>
            intro acc' hacc' kp' hkp' q' hq'
            rw [List.foldl_cons] at hkp'
            exact ihp _ (upsert_sound acc' _ ph _ rfl hacc') kp' hkp' q' hq'
        exact inner bu.2 acc hacc
      · exact hacc
  exact (key m.map [] (fun kp hkp => absurd hkp (List.not_mem_nil kp)) (k, pts) hmem p hp).symm

/-- C3 witness map: level 0 over the unit cube, one over-threshold bucket
holding the two opposite cube corners. -/
def cexMap : PointCloudMap :=
  { lod := 0
    bounds := ⟨⟨0, 0, 0⟩, ⟨1, 1, 1⟩⟩
    map := [((0, 0, 0), [⟨⟨1, 1, 1⟩, none, none⟩, ⟨⟨0, 0, 0⟩, none, none⟩])] }

/-- C3 counterexample: dividing `cexMap` with threshold 1 emits the corner
point `(1,1,1)` — which lies exactly on the bounding box's max face —
under key `(2,2,2)`, outside the claimed range `[0, 2^(0+1) − 1] = [0,1]`
and different from the clamped key `(1,1,1)`; no bucket with the clamped
key exists. -/
theorem divide_clamp_cex :
    ((2, 2, 2), [(⟨⟨1, 1, 1⟩, none, none⟩ : Point)]) ∈ (divide cexMap 1).map ∧
    divideKeyClamped cexMap.bounds cexMap.lod ⟨1, 1, 1⟩ = (1, 1, 1) ∧
    ¬ ((2 : ℤ) ≤ 2 ^ (0 + 1) - 1) ∧
    ((1, 1, 1) : KeyI) ∉ (divide cexMap 1).map.map Prod.fst := by
  refine ⟨by decide, by decide, by decide, by decide⟩

/-- Witness for the amended C3 at the concrete map: the emitted bucket
keyed `(2,2,2)` indeed carries the key `divide` computes for its point. -/
theorem divide_key_sound_witness :
    ((2, 2, 2), [(⟨⟨1, 1, 1⟩, none, none⟩ : Point)]) ∈ (divide cexMap 1).map ∧
    ((2, 2, 2) : KeyI) = divideKey cexMap.bounds cexMap.lod (⟨1, 1, 1⟩ : V3) :=
  ⟨by decide,
    divide_key_sound cexMap 1 (2, 2, 2) [⟨⟨1, 1, 1⟩, none, none⟩] (by decide)
      ⟨⟨1, 1, 1⟩, none, none⟩ (by decide)⟩

/-! ## Point parser (`Point::try_parse` in `point.rs`)

A whitespace token is modelled by the results of its two possible parses:
`str::parse::<f64>()` (used for `x`, `y`, `z` and the intensity) and
`str::parse::<u8>()` (used for `R`, `G`, `B`); `none` is a parse failure.
Parse failures propagate (`?`) as `none`, standing for the `anyhow`
error. -/

structure Token where
  parsedF : Option ℚ
  parsedU8 : Option ℕ
  deriving DecidableEq, Repr

/-- `Point::try_parse`: seven `split.next()` calls, then the match over
`(x, y, z, r, g, b, intensity)` with the source's arm order. -/
def tryParse (tokens : List Token) : Option Point :=
  let x := tokens[0]?
  let y := tokens[1]?
  let z := tokens[2]?
  let r := tokens[3]?
  let g := tokens[4]?
  let b := tokens[5]?
  let intensity := tokens[6]?
  match x, y, z with
  | some x, some y, some z =>
    match x.parsedF, y.parsedF, z.parsedF with
    | some xv, some yv, some zv =>
      match r, g, b, intensity with
      | some r, some g, some b, some i =>
        match r.parsedU8, g.parsedU8, b.parsedU8, i.parsedF with
        | some rv, some gv, some bv, some iv =>
          some ⟨⟨xv, yv, zv⟩, some ⟨rv, gv, bv⟩, some iv⟩
        | _, _, _, _ => none
      | some r, some g, some b, none =>
        match r.parsedU8, g.parsedU8, b.parsedU8 with
        | some rv, some gv, some bv => some ⟨⟨xv, yv, zv⟩, some ⟨rv, gv, bv⟩, none⟩
        | _, _, _ => none
      | some i, _, _, _ =>
        match i.parsedF with
        | some iv => some ⟨⟨xv, yv, zv⟩, none, some iv⟩
        | none => none
      | _, _, _, _ => some ⟨⟨xv, yv, zv⟩, none, none⟩
    | _, _, _ => none
  | _, _, _ => none

/-- The arity dispatch of the amended claim, written by token count:
fewer than 3 tokens fail; 3 give position only; 4 or 5 give position plus
intensity (the 4th token parsed as `f64`, the 5th ignored); 6 give
position plus RGB; 7 or more give position, RGB and intensity (tokens
beyond the 7th ignored); any attempted token parse failure fails. -/
def tryParseSpec (tokens : List Token) : Option Point :=
  match tokens with
  | x :: y :: z :: rest =>
    match x.parsedF, y.parsedF, z.parsedF with
    | some xv, some yv, some zv =>
      match rest with
      | [] => some ⟨⟨xv, yv, zv⟩, none, none⟩
      | [i] =>
        match i.parsedF with
        | some iv => some ⟨⟨xv, yv, zv⟩, none, some iv⟩
        | none => none
      | [i, _] =>
        match i.parsedF with
        | some iv => some ⟨⟨xv, yv, zv⟩, none, some iv⟩
        | none => none
      | [r, g, b] =>
        match r.parsedU8, g.parsedU8, b.parsedU8 with
        | some rv, some gv, some bv => some ⟨⟨xv, yv, zv⟩, some ⟨rv, gv, bv⟩, none⟩
        | _, _, _ => none
      | r :: g :: b :: i :: _ =>
        match r.parsedU8, g.parsedU8, b.parsedU8, i.parsedF with
        | some rv, some gv, some bv, some iv =>
          some ⟨⟨xv, yv, zv⟩, some ⟨rv, gv, bv⟩, some iv⟩
        | _, _, _, _ => none
    | _, _, _ => none
  | _ => none

/-- A token holding a number that parses as `f64` but not as `u8`. -/
def numTok (q : ℚ) : Token := ⟨some q, none⟩

/-- A token holding a small integer that parses both ways. -/
def byteTok (n : ℕ) : Token := ⟨some (n : ℚ), some n⟩

/-- C6 counterexample: a 5-token line parses successfully to position plus
intensity (4th token; the 5th is never read), and an 8-token line parses
successfully to position, RGB and intensity (the 8th is never read) — the
claim says both arities fail. -/
theorem tryParse_arity_cex :
    tryParse [numTok 1, numTok 2, numTok 3, numTok 4, numTok 99] =
      some ⟨⟨1, 2, 3⟩, none, some 4⟩ ∧
    tryParse [numTok 1, numTok 2, numTok 3, byteTok 10, byteTok 20, byteTok 30,
        numTok 7, numTok 999] =
      some ⟨⟨1, 2, 3⟩, some ⟨10, 20, 30⟩, some 7⟩ := ⟨rfl, rfl⟩

/-- C6 (amended): `try_parse` implements exactly the arity dispatch of
`tryParseSpec` (3 → position, 4/5 → position+intensity, 6 → position+RGB,
≥7 → position+RGB+intensity, ≤2 or any parse failure → error). -/
theorem tryParse_eq_spec (tokens : List Token) : tryParse tokens = tryParseSpec tokens := by
  match tokens with
  | [] => rfl
  | [_] => rfl
  | [_, _] => rfl
  | [_, _, _] => rfl
  | [_, _, _, _] => rfl
  | [_, _, _, _, _] => rfl
  | [_, _, _, _, _, _] => rfl
  | [_, _, _, _, _, _, _] => rfl
  | _ :: _ :: _ :: _ :: _ :: _ :: _ :: _ :: _ => rfl

/-! ## Encoder (`encoder.rs`)

`Encoder::encode_8bit` reads `self.normalized`, whose entries carry a
normalized position and an optional color (the `Point` literal built in
`Encoder::new` has exactly these two fields).  An `RgbaImage` is modelled
by its dimensions and a total pixel map, zero-filled on creation;
`put_pixel` is a pointwise update. -/

structure EPoint where
  position : V3
  color : Option Color
  deriving DecidableEq, Repr

structure Img where
  width : ℕ
  height : ℕ
  pix : ℕ × ℕ → ℕ × ℕ × ℕ × ℕ

def putPix (img : Img) (xy : ℕ × ℕ) (v : ℕ × ℕ × ℕ × ℕ) : Img :=
  { img with pix := fun xy' => if xy' = xy then v else img.pix xy' }

/-- Rust's `as u8` on a (floored) `f64`: saturating. -/
def f64AsU8 (x : ℤ) : ℕ := if x < 0 then 0 else if 255 < x then 255 else x.toNat

/-- `(n as f64).sqrt().ceil() as u32`: `⌈√n⌉` on naturals. -/
def natSqrtCeil (n : ℕ) : ℕ :=
  if natSqrtFl n * natSqrtFl n = n then natSqrtFl n else natSqrtFl n + 1

/-- The position pixel of one point:
`(⌊x·255⌋ as u8, ⌊y·255⌋ as u8, ⌊z·255⌋ as u8, 255)`. -/
def pixValue (p : EPoint) : ℕ × ℕ × ℕ × ℕ :=
  (f64AsU8 (Rat.floor (qmul p.position.x 255)),
   f64AsU8 (Rat.floor (qmul p.position.y 255)),
   f64AsU8 (Rat.floor (qmul p.position.z 255)), 255)

/-- The color pixel of one point: `(R, G, B, 255)`, white if absent. -/
def colValue (p : EPoint) : ℕ × ℕ × ℕ × ℕ :=
  ((p.color.getD Color.white).red, (p.color.getD Color.white).green,
    (p.color.getD Color.white).blue, 255)

/-- The body of the `enumerate` loop: `y = idx / side`, `x = idx % side`,
write the position and color pixels. -/
def encodeStep (side : ℕ) (acc : Img × Img) (ip : ℕ × EPoint) : Img × Img :=
  (putPix acc.1 (ip.1 % side, ip.1 / side) (pixValue ip.2),
   putPix acc.2 (ip.1 % side, ip.1 / side) (colValue ip.2))

/-- `Encoder::encode_8bit`. -/
def encode8bit (normalized : List EPoint) : Img × Img :=
  let side := natSqrtCeil normalized.length
  normalized.enum.foldl (encodeStep side)
    (⟨side, side, fun _ => (0, 0, 0, 0)⟩, ⟨side, side, fun _ => (0, 0, 0, 0)⟩)

theorem encodeFold_dims (side : ℕ) (l : List (ℕ × EPoint)) (acc : Img × Img) :
    (l.foldl (encodeStep side) acc).1.width = acc.1.width ∧
    (l.foldl (encodeStep side) acc).1.height = acc.1.height ∧
    (l.foldl (encodeStep side) acc).2.width = acc.2.width ∧
    (l.foldl (encodeStep side) acc).2.height = acc.2.height := by
  induction l generalizing acc with
  | nil => exact ⟨rfl, rfl, rfl, rfl⟩
  | cons hd tl ih =>
    rw [List.foldl_cons]
    exact ih (encodeStep side acc hd)

theorem encodeFold_pix_untouched (side : ℕ) (l : List (ℕ × EPoint)) (acc : Img × Img)
    (xy : ℕ × ℕ) (h : ∀ jq ∈ l, (jq.1 % side, jq.1 / side) ≠ xy) :
    (l.foldl (encodeStep side) acc).1.pix xy = acc.1.pix xy := by
  induction l generalizing acc with
  | nil => rfl
  | cons hd tl ih =>
    rw [List.foldl_cons]
    rw [ih _ (fun jq hjq => h jq (List.mem_cons_of_mem _ hjq))]
    show (if xy = (hd.1 % side, hd.1 / side) then _ else acc.1.pix xy) = acc.1.pix xy
    rw [if_neg (fun he => h hd (List.mem_cons_self _ _) he.symm)]

/-- After the encoding fold, the pixel of an index that occurs exactly once
and clashes with no other index holds that point's value. -/
theorem encodeFold_pix (side : ℕ) (l : List (ℕ × EPoint)) (acc : Img × Img)
    (i : ℕ) (p : EPoint) (hmem : (i, p) ∈ l) (hnodup : (l.map Prod.fst).Nodup)
    (hkey : ∀ jq ∈ l, jq.1 ≠ i → (jq.1 % side, jq.1 / side) ≠ (i % side, i / side)) :
    (l.foldl (encodeStep side) acc).1.pix (i % side, i / side) = pixValue p := by
  induction l generalizing acc with
  | nil => cases hmem
  | cons hd tl ih =>
    obtain ⟨j, q⟩ := hd
    rw [List.map_cons, List.nodup_cons] at hnodup
    rw [List.foldl_cons]
    by_cases hji : j = i
    · subst hji
      have hpq : p = q := by
        rcases List.mem_cons.mp hmem with heq | hmem'
        · exact ((Prod.mk.injEq _ _ _ _ |>.mp heq.symm).2).symm
        · exact absurd (List.mem_map_of_mem Prod.fst hmem') hnodup.1
      subst hpq
      rw [encodeFold_pix_untouched]
      · show (if ((j % side, j / side) : ℕ × ℕ) = (j % side, j / side) then pixValue p
          else _) = pixValue p
        rw [if_pos rfl]
      · intro jq hjq
        have hne : jq.1 ≠ j := by
          intro he
          have hmm : jq.1 ∈ tl.map Prod.fst := List.mem_map_of_mem Prod.fst hjq
          rw [he] at hmm
          exact hnodup.1 hmm
        exact hkey jq (List.mem_cons_of_mem _ hjq) hne
    · have hmem' : (i, p) ∈ tl := by
        rcases List.mem_cons.mp hmem with heq | hmem'
        · exact absurd (congrArg Prod.fst heq).symm hji
        · exact hmem'
      exact ih (encodeStep side acc (j, q)) hmem' hnodup.2
        (fun jq hjq hne => hkey jq (List.mem_cons_of_mem _ hjq) hne)

/-- `Rat.floor` agrees with the mathematical floor. -/
theorem ratFloor_eq_intFloor (q : ℚ) : Rat.floor q = ⌊q⌋ :=
  (Rat.floor_def' q).trans Rat.floor_def.symm

/-- C9: for `n ≥ 1` normalized points, `encode_8bit` produces two images
of side `⌈√n⌉` (characterised by `(side−1)² < n ≤ side²`); index `i < n`
maps to the in-bounds pixel `(i % side, i / side)`, distinct indices map
to distinct pixels, and the position image stores
`(⌊x·255⌋, ⌊y·255⌋, ⌊z·255⌋, 255)` for coordinates in `[0,1]³`. -/
theorem encode8bit_spec (pts : List EPoint) (hne : pts ≠ [])
    (hin : ∀ p ∈ pts, 0 ≤ p.position.x ∧ p.position.x ≤ 1 ∧ 0 ≤ p.position.y ∧
      p.position.y ≤ 1 ∧ 0 ≤ p.position.z ∧ p.position.z ≤ 1)
    (i : ℕ) (hi : i < pts.length) (p : EPoint) (hp : pts[i]? = some p) :
    (encode8bit pts).1.width = natSqrtCeil pts.length ∧
    (encode8bit pts).1.height = natSqrtCeil pts.length ∧
    (encode8bit pts).2.width = natSqrtCeil pts.length ∧
    (encode8bit pts).2.height = natSqrtCeil pts.length ∧
    pts.length ≤ natSqrtCeil pts.length * natSqrtCeil pts.length ∧
    (natSqrtCeil pts.length - 1) * (natSqrtCeil pts.length - 1) < pts.length ∧
    i / natSqrtCeil pts.length < natSqrtCeil pts.length ∧
    (∀ j, j < pts.length → j ≠ i →
      ((j % natSqrtCeil pts.length, j / natSqrtCeil pts.length) : ℕ × ℕ) ≠
        (i % natSqrtCeil pts.length, i / natSqrtCeil pts.length)) ∧
    (encode8bit pts).1.pix (i % natSqrtCeil pts.length, i / natSqrtCeil pts.length) =
      ((Rat.floor (qmul p.position.x 255)).toNat,
       (Rat.floor (qmul p.position.y 255)).toNat,
       (Rat.floor (qmul p.position.z 255)).toNat, 255) := by
  have hn1 : 1 ≤ pts.length := by
    cases pts with
    | nil => exact absurd rfl hne
    | cons a l => simp
  obtain ⟨hfl2, hfl3⟩ := natSqrtFl_spec pts.length
  have hbranch : (natSqrtCeil pts.length = natSqrtFl pts.length ∧
        natSqrtFl pts.length * natSqrtFl pts.length = pts.length) ∨
      (natSqrtCeil pts.length = natSqrtFl pts.length + 1 ∧
        natSqrtFl pts.length * natSqrtFl pts.length ≠ pts.length) := by
    by_cases hperf : natSqrtFl pts.length * natSqrtFl pts.length = pts.length
    · exact Or.inl ⟨by rw [natSqrtCeil, if_pos hperf], hperf⟩
    · exact Or.inr ⟨by rw [natSqrtCeil, if_neg hperf], hperf⟩
  have hflpos : 1 ≤ natSqrtFl pts.length ∨
      natSqrtFl pts.length * natSqrtFl pts.length ≠ pts.length := by
    rcases Nat.eq_zero_or_pos (natSqrtFl pts.length) with h0 | hpos
    · right
      rw [h0]
      omega
    · exact Or.inl hpos
  have hsq : pts.length ≤ natSqrtCeil pts.length * natSqrtCeil pts.length := by
    rcases hbranch with ⟨hc, hperf⟩ | ⟨hc, hperf⟩
    · rw [hc]
      omega
    · rw [hc]
      omega
  have hlow : (natSqrtCeil pts.length - 1) * (natSqrtCeil pts.length - 1) < pts.length := by
    rcases hbranch with ⟨hc, hperf⟩ | ⟨hc, hperf⟩
    · rw [hc]
      have hpos : 1 ≤ natSqrtFl pts.length := by
        rcases hflpos with h | h
        · exact h
        · exact absurd hperf h
      obtain ⟨k, hk⟩ : ∃ k, natSqrtFl pts.length = k + 1 :=
        ⟨natSqrtFl pts.length - 1, by omega⟩
      rw [hk]
      have hks : k * k < (k + 1) * (k + 1) := Nat.mul_self_lt_mul_self (by omega)
      have hred : k + 1 - 1 = k := by omega
      rw [hred]
      rw [hk] at hperf
      omega
    · rw [hc]
      have hred : natSqrtFl pts.length + 1 - 1 = natSqrtFl pts.length := by omega
      rw [hred]
      omega
  have hside1 : 1 ≤ natSqrtCeil pts.length := by
    rcases hbranch with ⟨hc, hperf⟩ | ⟨hc, hperf⟩
    · rw [hc]
      rcases hflpos with h | h
      · exact h
      · exact absurd hperf h
    · rw [hc]
      omega
  have hdims := encodeFold_dims (natSqrtCeil pts.length) pts.enum
    (⟨natSqrtCeil pts.length, natSqrtCeil pts.length, fun _ => (0, 0, 0, 0)⟩,
     ⟨natSqrtCeil pts.length, natSqrtCeil pts.length, fun _ => (0, 0, 0, 0)⟩)
  have hinj : ∀ j, j ≠ i →
      ((j % natSqrtCeil pts.length, j / natSqrtCeil pts.length) : ℕ × ℕ) ≠
        (i % natSqrtCeil pts.length, i / natSqrtCeil pts.length) := by
    intro j hne' heq
    have h1 : j % natSqrtCeil pts.length = i % natSqrtCeil pts.length :=
      (Prod.mk.injEq _ _ _ _ |>.mp heq).1
    have h2 : j / natSqrtCeil pts.length = i / natSqrtCeil pts.length :=
      (Prod.mk.injEq _ _ _ _ |>.mp heq).2
    have hj := Nat.div_add_mod j (natSqrtCeil pts.length)
    have hi' := Nat.div_add_mod i (natSqrtCeil pts.length)
    rw [h1, h2] at hj
    omega
  have hpix : (encode8bit pts).1.pix
      (i % natSqrtCeil pts.length, i / natSqrtCeil pts.length) = pixValue p := by
    rw [encode8bit]
    exact encodeFold_pix _ _ _ i p (List.mk_mem_enum_iff_getElem?.mpr hp)
      (List.nodup_enum_map_fst pts) (fun jq _ hne' => hinj jq.1 hne')
  have hrange := hin p (List.getElem?_mem hp)
  have hval : pixValue p =
      ((Rat.floor (qmul p.position.x 255)).toNat,
       (Rat.floor (qmul p.position.y 255)).toNat,
       (Rat.floor (qmul p.position.z 255)).toNat, 255) := by
    obtain ⟨hx0, hx1, hy0, hy1, hz0, hz1⟩ := hrange
    have key : ∀ t : ℚ, 0 ≤ t → t ≤ 1 →
        f64AsU8 (Rat.floor (qmul t 255)) = (Rat.floor (qmul t 255)).toNat := by
      intro t ht0 ht1
      rw [ratFloor_eq_intFloor, qmul_eq]
      have hlo : (0 : ℤ) ≤ ⌊t * 255⌋ := by
        rw [Int.le_floor]
        positivity
      have hhi : ⌊t * 255⌋ ≤ 255 := by
        have : ⌊t * 255⌋ ≤ ⌊(255 : ℚ)⌋ :=
          Int.floor_le_floor (by nlinarith)
        simpa using this
      rw [f64AsU8, if_neg (by omega), if_neg (by omega)]
    rw [pixValue, key _ hx0 hx1, key _ hy0 hy1, key _ hz0 hz1]
  refine ⟨hdims.1, hdims.2.1, hdims.2.2.1, hdims.2.2.2, hsq, hlow, ?_,
    fun j _ hne' => hinj j hne', hpix.trans hval⟩
  rw [Nat.div_lt_iff_lt_mul (by omega)]
  omega

/-- Witness points for C9: two normalized points, giving a 2×2 image. -/
def encWitPts : List EPoint := [⟨⟨0, 0, 0⟩, none⟩, ⟨⟨1, 0, 1⟩, some ⟨9, 9, 9⟩⟩]

/-- Witness for C9 at `encWitPts`, index 1: the pixel `(1, 0)` of the
position image holds `(255, 0, 255, 255)`. -/
theorem encode8bit_spec_witness :
    encWitPts ≠ [] ∧ 1 < encWitPts.length ∧
    (encode8bit encWitPts).1.pix
        (1 % natSqrtCeil encWitPts.length, 1 / natSqrtCeil encWitPts.length) =
      ((Rat.floor (qmul (1 : ℚ) 255)).toNat, (Rat.floor (qmul (0 : ℚ) 255)).toNat,
       (Rat.floor (qmul (1 : ℚ) 255)).toNat, 255) :=
  ⟨by decide, by decide,
    (encode8bit_spec encWitPts (by decide) (by decide) 1 (by decide)
      ⟨⟨1, 0, 1⟩, some ⟨9, 9, 9⟩⟩ (by decide)).2.2.2.2.2.2.2.2⟩

end PcdLod
